import Mathlib

/-!
Shallow embedding of the flexo core scheduling engine (src/flexo/src/lib.rs):
association-list models of the shared hash maps, the provider-selection score,
the attempt loop of Order::try_until_success, and the scheduler entry point
JobContext::try_schedule, together with proofs of the specified properties.
-/

namespace Flexo

/-- Provider identity. The Rust code is generic over any hashable, clonable
provider type; the claims only need identities usable as map keys. -/
abbrev Provider := Nat

/-! ### Association-list model of std::collections::HashMap

The Rust core keeps its shared state in hash maps. We model a map as a list of
key-value pairs where the first occurrence of a key is authoritative. -/

/-- First-occurrence lookup; models HashMap::get. -/
def mget {α β : Type} [DecidableEq α] : List (α × β) → α → Option β
| [], _ => none
| e :: rest, k => if e.1 = k then some e.2 else mget rest k

/-- Lookup with a default; models patterns such as map.get(k).unwrap_or(&0). -/
def mgetD {α β : Type} [DecidableEq α] (m : List (α × β)) (k : α) (d : β) : β :=
(mget m k).getD d

/-- Insert-or-replace; models HashMap::insert as well as in-place mutation of
the value found by entry(k).or_insert(d). -/
def mset {α β : Type} [DecidableEq α] : List (α × β) → α → β → List (α × β)
| [], k, v => [(k, v)]
| e :: rest, k, v => if e.1 = k then (k, v) :: rest else e :: mset rest k v

/-- Key removal; models HashMap::remove (the returned value is unused). -/
def mremove {α β : Type} [DecidableEq α] (m : List (α × β)) (k : α) : List (α × β) :=
m.filter fun e => decide (¬ e.1 = k)

theorem mget_mset_self {α β : Type} [DecidableEq α] (m : List (α × β)) (k : α) (v : β) :
    mget (mset m k v) k = some v := by
  induction m with
  | nil => simp [mget, mset]
  | cons e rest ih =>
    by_cases h : e.1 = k
    · simp [mget, mset, h]
    · simp [mget, mset, h, ih]

theorem mget_mset_ne {α β : Type} [DecidableEq α] (m : List (α × β)) (k q : α) (v : β)
    (h : q ≠ k) : mget (mset m k v) q = mget m q := by
  have hkq : ¬ k = q := fun hq => h hq.symm
  induction m with
  | nil => simp [mget, mset, hkq]
  | cons e rest ih =>
    by_cases he : e.1 = k
    · have heq : ¬ e.1 = q := by rw [he]; exact hkq
      simp [mget, mset, he, heq, hkq]
    · by_cases hq : e.1 = q
      · simp [mget, mset, he, hq, h]
      · simp [mget, mset, he, hq, ih]

theorem mget_mremove {α β : Type} [DecidableEq α] (m : List (α × β)) (k q : α) :
    mget (mremove m k) q = if q = k then none else mget m q := by
  induction m with
  | nil => simp [mget, mremove]
  | cons e rest ih =>
    by_cases he : e.1 = k
    · have hskip : mremove (e :: rest) k = mremove rest k := by
        simp [mremove, List.filter_cons, he]
      rw [hskip, ih]
      by_cases hq : q = k
      · simp [hq]
      · have heq : ¬ e.1 = q := by rw [he]; exact fun hh => hq hh.symm
        simp [hq, mget, heq]
    · have hkeep : mremove (e :: rest) k = e :: mremove rest k := by
        simp [mremove, List.filter_cons, he]
      rw [hkeep]
      by_cases hq : q = k
      · subst hq
        simp [mget, he, ih]
      · by_cases heq : e.1 = q
        · simp [mget, heq, hq]
        · simp [mget, heq, ih, hq]

theorem mem_mset {α β : Type} [DecidableEq α] (m : List (α × β)) (k : α) (v : β)
    (e : α × β) (h : e ∈ mset m k v) : e = (k, v) ∨ e ∈ m := by
  induction m with
  | nil => simpa [mset] using h
  | cons f rest ih =>
    by_cases hf : f.1 = k
    · simp [mset, hf] at h
      rcases h with h | h
      · left; simp [h]
      · right; simp [h]
    · simp [mset, hf] at h
      rcases h with h | h
      · right; simp [h]
      · rcases ih h with h | h
        · left; exact h
        · right; simp [h]

theorem mem_mremove {α β : Type} [DecidableEq α] (m : List (α × β)) (k : α)
    (e : α × β) (h : e ∈ mremove m k) : e ∈ m :=
  List.mem_of_mem_filter h

/-! ### The dynamic score (lib.rs lines 287-293)

struct DynamicScore with derive(PartialOrd, Ord): comparison proceeds field by
field in declaration order, exactly as produced by the Rust derive macro. The
static score type parameter S (instantiated by the collaborators) is modelled
by Int. -/

/-- Total-order comparison on Int, as Ord on Rust integers. -/
def icmp (a b : Int) : Ordering :=
if a < b then Ordering.lt else if a = b then Ordering.eq else Ordering.gt

/-- A score that incorporates information gained while using a provider. -/
structure DynamicScore where
  num_failures : Int
  num_current_usages : Int
  initial_score : Int
deriving DecidableEq

/-- Field-by-field comparison, as generated by derive(Ord) on DynamicScore. -/
def DynamicScore.cmp (a b : DynamicScore) : Ordering :=
(icmp a.num_failures b.num_failures).then
  ((icmp a.num_current_usages b.num_current_usages).then
    (icmp a.initial_score b.initial_score))

theorem icmp_lt_iff (a b : Int) : icmp a b = Ordering.lt ↔ a < b := by
  unfold icmp; split_ifs <;> simp_all

theorem icmp_eq_iff (a b : Int) : icmp a b = Ordering.eq ↔ a = b := by
  unfold icmp; split_ifs <;> simp_all <;> omega

/-- The derived comparison is the lexicographic order on the field triple. -/
theorem cmp_lt_iff (a b : DynamicScore) :
    a.cmp b = Ordering.lt ↔
      (a.num_failures < b.num_failures ∨
        (a.num_failures = b.num_failures ∧
          (a.num_current_usages < b.num_current_usages ∨
            (a.num_current_usages = b.num_current_usages ∧
              a.initial_score < b.initial_score)))) := by
  unfold DynamicScore.cmp
  unfold icmp
  split_ifs <;> simp_all [Ordering.then] <;> omega

theorem cmp_lt_asymm (a b : DynamicScore) (h : a.cmp b = Ordering.lt) :
    ¬ b.cmp a = Ordering.lt := by
  rw [cmp_lt_iff] at *
  omega

theorem cmp_lt_irrefl (a : DynamicScore) : ¬ a.cmp a = Ordering.lt := by
  rw [cmp_lt_iff]
  omega

theorem cmp_not_lt_trans (a b c : DynamicScore)
    (hab : ¬ a.cmp b = Ordering.lt) (hbc : ¬ b.cmp c = Ordering.lt) :
    ¬ a.cmp c = Ordering.lt := by
  rw [cmp_lt_iff] at *
  omega

/-! ### Provider selection (lib.rs lines 251-270) -/

/-- The shared tallies together with the per-request working list of
providers (struct ProvidersWithStats). -/
structure ProvidersWithStats where
  provider_failures : List (Provider × Int)
  provider_current_usages : List (Provider × Int)
  providers : List Provider
deriving DecidableEq

/-- The score computed for each remaining provider inside select_provider:
failures and usages default to 0 for providers absent from the maps. -/
def dynScore (failures usages : List (Provider × Int)) (initial_score : Provider → Int)
    (p : Provider) : DynamicScore :=
{ num_failures := mgetD failures p 0,
  num_current_usages := mgetD usages p 0,
  initial_score := initial_score p }

/-- Index and value of the first minimal element, as computed by
Iterator::min_by_key (which returns the first of equally minimal elements). -/
def minIdxVal : List DynamicScore → Nat × DynamicScore
| [] => (0, ⟨0, 0, 0⟩)
| [s] => (0, s)
| s :: t :: rest =>
  let m := minIdxVal (t :: rest)
  if m.2.cmp s = Ordering.lt then (m.1 + 1, m.2) else (0, s)

theorem minIdxVal_fst_lt (l : List DynamicScore) (h : l ≠ []) : (minIdxVal l).1 < l.length := by
  induction l with
  | nil => exact absurd rfl h
  | cons s rest ih =>
    cases rest with
    | nil => simp [minIdxVal]
    | cons t rest2 =>
      have ih2 := ih (by simp)
      by_cases hlt : (minIdxVal (t :: rest2)).2.cmp s = Ordering.lt
      · simp only [minIdxVal, hlt, if_pos, List.length_cons]
        simp at ih2 ⊢
        omega
      · simp [minIdxVal, hlt]

theorem minIdxVal_getD (l : List DynamicScore) (h : l ≠ []) :
    l.getD (minIdxVal l).1 ⟨0, 0, 0⟩ = (minIdxVal l).2 := by
  induction l with
  | nil => exact absurd rfl h
  | cons s rest ih =>
    cases rest with
    | nil => simp [minIdxVal]
    | cons t rest2 =>
      have ih2 := ih (by simp)
      by_cases hlt : (minIdxVal (t :: rest2)).2.cmp s = Ordering.lt
      · simp only [minIdxVal, hlt, if_pos, List.getD_cons_succ]
        exact ih2
      · simp [minIdxVal, hlt]

theorem minIdxVal_min (l : List DynamicScore) :
    ∀ q ∈ l, ¬ q.cmp (minIdxVal l).2 = Ordering.lt := by
  induction l with
  | nil => simp
  | cons s rest ih =>
    intro q hq
    cases rest with
    | nil =>
      simp at hq
      subst hq
      simpa [minIdxVal] using cmp_lt_irrefl q
    | cons t rest2 =>
      by_cases hlt : (minIdxVal (t :: rest2)).2.cmp s = Ordering.lt
      · simp only [minIdxVal, hlt, if_pos]
        rcases List.mem_cons.mp hq with h | h
        · subst h
          exact fun hc => cmp_lt_asymm _ _ hlt hc
        · exact ih q h
      · simp only [minIdxVal, hlt, if_neg]
        rcases List.mem_cons.mp hq with h | h
        · subst h
          exact cmp_lt_irrefl q
        · exact cmp_not_lt_trans q _ s (ih q h) hlt

/-! ### punish, reward (lib.rs lines 89-98) and pardon (lib.rs lines 272-284) -/

/-- Provider::punish — failures.entry(p).or_insert(0) then += 1. -/
def punish (p : Provider) (failures : List (Provider × Int)) : List (Provider × Int) :=
mset failures p (mgetD failures p 0 + 1)

/-- Provider::reward — failures.entry(p).or_insert(0) then -= 1. -/
def reward (p : Provider) (failures : List (Provider × Int)) : List (Provider × Int) :=
mset failures p (mgetD failures p 0 - 1)

/-- Order::pardon — for each punished provider, decrement its entry if the key
is occupied, and silently skip vacant keys. -/
def pardon (punished_providers : List Provider) (failures : List (Provider × Int)) :
    List (Provider × Int) :=
punished_providers.foldl
  (fun m p =>
    match mget m p with
    | some v => mset m p (v - 1)
    | none => m)
  failures

/-- Order::select_provider — score every remaining provider, take the first
minimum, remove it from the working list, and report whether the working list
is now empty. Returns none when the working list is empty (the Rust code
panics on unwrap in that case). -/
def select_provider (initial_score : Provider → Int) (st : ProvidersWithStats) :
    Option ((Provider × Bool) × ProvidersWithStats) :=
match st.providers with
| [] => none
| p :: rest =>
  let scores := (p :: rest).map
    (dynScore st.provider_failures st.provider_current_usages initial_score)
  let idx := (minIdxVal scores).1
  let chosen := (p :: rest).getD idx p
  let remaining := (p :: rest).eraseIdx idx
  some ((chosen, remaining.isEmpty),
    { st with providers := remaining })

/-- Characterization of select_provider on a non-empty working list: it
returns the entry at the first index achieving the minimal dynamic score,
erases that index from the working list, leaves both tallies untouched, and
reports whether the list is now empty. -/
theorem select_provider_eq (initial_score : Provider → Int) (st : ProvidersWithStats)
    (h : st.providers ≠ []) :
    ∃ i : Nat, i < st.providers.length ∧
      select_provider initial_score st = some
        ((st.providers.getD i 0, (st.providers.eraseIdx i).isEmpty),
         { st with providers := st.providers.eraseIdx i }) ∧
      (∀ q ∈ st.providers,
        ¬ (dynScore st.provider_failures st.provider_current_usages initial_score q).cmp
            (dynScore st.provider_failures st.provider_current_usages initial_score
              (st.providers.getD i 0)) = Ordering.lt) := by
  rcases hps : st.providers with _ | ⟨p, rest⟩
  · exact absurd hps h
  set f := dynScore st.provider_failures st.provider_current_usages initial_score with hf
  set scores := (p :: rest).map f with hscores
  have hlen : scores.length = (p :: rest).length := by simp [hscores]
  have hsne : scores ≠ [] := by simp [hscores]
  have hidx : (minIdxVal scores).1 < (p :: rest).length := hlen ▸ minIdxVal_fst_lt scores hsne
  refine ⟨(minIdxVal scores).1, hidx, ?_, ?_⟩
  · have hd : (p :: rest).getD (minIdxVal scores).1 0 = (p :: rest).getD (minIdxVal scores).1 p := by
      rw [List.getD_eq_getElem _ _ hidx, List.getD_eq_getElem _ _ hidx]
    rw [hd]
    simp only [select_provider, hps, hscores, hf]
  · intro q hq
    have hqs : f q ∈ scores := by
      rw [hscores]
      exact List.mem_map_of_mem f hq
    have hmin := minIdxVal_min scores (f q) hqs
    have hval : f ((p :: rest).getD (minIdxVal scores).1 0) = (minIdxVal scores).2 := by
      have hilt : (minIdxVal scores).1 < scores.length := minIdxVal_fst_lt scores hsne
      have h1 : scores.getD (minIdxVal scores).1 ⟨0, 0, 0⟩ = (minIdxVal scores).2 :=
        minIdxVal_getD scores hsne
      have hdd : ∀ {γ : Type} (l : List γ) (d1 d2 : γ) (j : Nat), j < l.length →
          l.getD j d1 = l.getD j d2 := by
        intro γ l d1 d2 j hj
        rw [List.getD_eq_getElem _ _ hj, List.getD_eq_getElem _ _ hj]
      have h2 : scores.getD (minIdxVal scores).1 ⟨0, 0, 0⟩ =
          f ((p :: rest).getD (minIdxVal scores).1 0) := by
        rw [hdd scores ⟨0, 0, 0⟩ (f p) _ hilt]
        rw [hscores, List.getD_map]
        exact congrArg f (hdd (p :: rest) p 0 _ hidx)
      rw [← h2, h1]
    exact fun hc => hmin (hval ▸ hc)

/-- In a duplicate-free list, the element at index i does not survive the
removal of index i. -/
theorem nodup_getD_not_mem_eraseIdx :
    ∀ (l : List Provider) (i : Nat), l.Nodup → i < l.length → l.getD i 0 ∉ l.eraseIdx i
| [], i, _, hi => by simp at hi
| a :: t, 0, hnd, _ => by
  simpa using (List.nodup_cons.mp hnd).1
| a :: t, i + 1, hnd, hi => by
  have ht : t.Nodup := (List.nodup_cons.mp hnd).2
  have ha : a ∉ t := (List.nodup_cons.mp hnd).1
  have hit : i < t.length := by simpa using hi
  have hmem : t.getD i 0 ∈ t := by
    rw [List.getD_eq_getElem _ _ hit]
    exact List.getElem_mem hit
  simp only [List.getD_cons_succ, List.eraseIdx_cons_succ, List.mem_cons]
  push_neg
  constructor
  · exact fun he => ha (he ▸ hmem)
  · exact nodup_getD_not_mem_eraseIdx t i ht hit

/-! ### The attempt loop (Order::try_until_success, lib.rs lines 167-249) -/

/-- ChannelEstablishment. -/
inductive Establishment
| NewChannel
| ExistingChannel
deriving DecidableEq

/-- FlexoMessage: the values a worker sends on its message stream. -/
inductive Msg
| ProviderSelected (p : Provider)
| ChannelEstablished (e : Establishment)
| OrderError
deriving DecidableEq

/-- The tags of JobResult. Complete records the size reported by the job; the
channel payloads carried by the Rust variants are irrelevant to the claims and
omitted. JRes.PartialJob stands for JobResult::Partial and JRes.JobError for
JobResult::Error. -/
inductive JRes
| Complete (size : Nat)
| PartialJob
| JobError
| Unavailable
| ClientError
| UnexpectedInternalError
deriving DecidableEq

/-- JobResult::is_success. -/
def JRes.isSuccess : JRes → Bool
| JRes.Complete _ => true
| _ => false

/-- One attempt either acquires a channel (get_channel succeeded, then
serve_from_provider produced a result) or fails to (handle_error converts the
error into a result). An environment function supplies one AttemptStep per
attempt number and provider, abstracting the external Job. -/
inductive AttemptStep
| channelOk (est : Establishment) (res : JRes)
| channelErr (res : JRes)

/-- NUM_MAX_ATTEMPTS (lib.rs line 10). -/
def NUM_MAX_ATTEMPTS : Nat := 100

/-- The outcome of one iteration of the loop body. -/
structure AttemptOut where
  provider : Provider
  isLast : Bool
  lastChance : Bool
  result : JRes
  stats : ProvidersWithStats
  punishedNew : List Provider
  pair : List Msg

/-- One iteration of the loop body of try_until_success: select a provider
(or take the custom provider with is_last_provider = true), compute
last_chance, send ProviderSelected, bump the usage tally, run the attempt,
send ChannelEstablished or OrderError, and punish or reward as dictated by
the result. Returns none when select_provider panics on an empty list. -/
def attemptOnce (env : Nat → Provider → AttemptStep) (initial_score : Provider → Int)
    (custom : Option Provider) (st : ProvidersWithStats) (numAttempt : Nat)
    (punished : List Provider) : Option AttemptOut :=
  let sel := match custom with
    | none => select_provider initial_score st
    | some p => some ((p, true), st)
  match sel with
  | none => none
  | some ((provider, isLast), st1) =>
    let lastChance := decide (NUM_MAX_ATTEMPTS ≤ numAttempt) || isLast
    let st2 := { st1 with
      provider_current_usages :=
        mset st1.provider_current_usages provider
          (mgetD st1.provider_current_usages provider 0 + 1) }
    let step := env numAttempt provider
    let pair := match step with
      | AttemptStep.channelOk est _ => [Msg.ProviderSelected provider, Msg.ChannelEstablished est]
      | AttemptStep.channelErr _ => [Msg.ProviderSelected provider, Msg.OrderError]
    let result := match step with
      | AttemptStep.channelOk _ res => res
      | AttemptStep.channelErr res => res
    let st3 := match result with
      | JRes.Complete _ => { st2 with provider_failures := reward provider st2.provider_failures }
      | JRes.PartialJob => { st2 with provider_failures := punish provider st2.provider_failures }
      | JRes.JobError => { st2 with provider_failures := punish provider st2.provider_failures }
      | _ => st2
    let punishedNew := match result with
      | JRes.PartialJob => punished ++ [provider]
      | JRes.JobError => punished ++ [provider]
      | _ => punished
    some { provider := provider, isLast := isLast, lastChance := lastChance,
           result := result, stats := st3, punishedNew := punishedNew, pair := pair }

/-- The loop exits after this attempt: ClientError and UnexpectedInternalError
break out of the result match directly; otherwise the loop breaks when the
result is a success, the working list is exhausted, or this was the last
chance. -/
def isBreak (a : AttemptOut) : Bool :=
  decide (a.result = JRes.ClientError) || decide (a.result = JRes.UnexpectedInternalError) ||
    a.result.isSuccess || a.stats.providers.isEmpty || a.lastChance

/-- The observable outcome of a full run of the loop. -/
structure LoopOut where
  result : JRes
  lastProvider : Provider
  stats : ProvidersWithStats
  punished : List Provider
  msgs : List Msg
  attempts : Nat
deriving DecidableEq

/-- panicked models the unwrap panic inside select_provider on an empty
working list; fuelExhausted cannot occur when the loop is run with enough
fuel (see the termination theorem for claim C7). -/
inductive RunOut
| panicked
| fuelExhausted
| finished (out : LoopOut)
deriving DecidableEq

/-- The loop of try_until_success, with an explicit fuel parameter making the
recursion structural; try_until_success supplies fuel that never runs out. -/
def tryLoop (env : Nat → Provider → AttemptStep) (initial_score : Provider → Int)
    (custom : Option Provider) :
    Nat → ProvidersWithStats → Nat → List Provider → RunOut
| 0, _, _, _ => RunOut.fuelExhausted
| fuel + 1, st, numAttempt, punished =>
  match attemptOnce env initial_score custom st (numAttempt + 1) punished with
  | none => RunOut.panicked
  | some a =>
    if isBreak a then
      RunOut.finished { result := a.result, lastProvider := a.provider, stats := a.stats,
                        punished := a.punishedNew, msgs := a.pair, attempts := numAttempt + 1 }
    else
      match tryLoop env initial_score custom fuel a.stats (numAttempt + 1) a.punishedNew with
      | RunOut.finished out => RunOut.finished { out with msgs := a.pair ++ out.msgs }
      | r => r

/-- Order::try_until_success: run the loop from attempt 0 with no punished
providers, then pardon every punished provider if the final result is not a
success. -/
def try_until_success (env : Nat → Provider → AttemptStep) (initial_score : Provider → Int)
    (custom : Option Provider) (st : ProvidersWithStats) : RunOut :=
  match tryLoop env initial_score custom (st.providers.length + 1) st 0 [] with
  | RunOut.finished out =>
    if out.result.isSuccess then RunOut.finished out
    else RunOut.finished { out with stats :=
      { out.stats with provider_failures := pardon out.punished out.stats.provider_failures } }
  | r => r

/-- Inversion for a successful selection: the selected provider sits at the
first minimal-score index, the working list loses exactly that index, and the
tallies are untouched. -/
theorem select_provider_inv (initial_score : Provider → Int) (st : ProvidersWithStats)
    (pr : Provider) (b : Bool) (st1 : ProvidersWithStats)
    (hsel : select_provider initial_score st = some ((pr, b), st1)) :
    ∃ i : Nat, i < st.providers.length ∧ st.providers.getD i 0 = pr ∧
      st1.providers = st.providers.eraseIdx i ∧
      b = st1.providers.isEmpty ∧
      st1.provider_failures = st.provider_failures ∧
      st1.provider_current_usages = st.provider_current_usages ∧
      pr ∈ st.providers ∧
      (∀ q ∈ st.providers,
        ¬ (dynScore st.provider_failures st.provider_current_usages initial_score q).cmp
            (dynScore st.provider_failures st.provider_current_usages initial_score pr)
          = Ordering.lt) := by
  have hne : st.providers ≠ [] := by
    intro he
    rw [select_provider, he] at hsel
    exact Option.noConfusion hsel
  obtain ⟨i, hi, heq, hmin⟩ := select_provider_eq initial_score st hne
  rw [hsel] at heq
  injection heq with heq
  have h1 : pr = st.providers.getD i 0 := congrArg (fun x => x.1.1) heq
  have h2 : b = (st.providers.eraseIdx i).isEmpty := congrArg (fun x => x.1.2) heq
  have h3 : st1 = { st with providers := st.providers.eraseIdx i } :=
    congrArg (fun x => x.2) heq
  have hmem : st.providers.getD i 0 ∈ st.providers := by
    rw [List.getD_eq_getElem _ _ hi]
    exact List.getElem_mem hi
  subst h3
  refine ⟨i, hi, h1.symm, rfl, h2, rfl, rfl, h1 ▸ hmem, ?_⟩
  intro q hq
  exact h1 ▸ hmin q hq

/-- Inversion of one loop iteration without a custom provider, in terms of the
selection it performed. -/
theorem attemptOnce_none_spec (env : Nat → Provider → AttemptStep)
    (initial_score : Provider → Int) (st : ProvidersWithStats) (n : Nat)
    (pun : List Provider) (a : AttemptOut) (pr : Provider) (b : Bool)
    (st1 : ProvidersWithStats)
    (hsel : select_provider initial_score st = some ((pr, b), st1))
    (h : attemptOnce env initial_score none st n pun = some a) :
    a.provider = pr ∧ a.isLast = b ∧
    a.lastChance = (decide (NUM_MAX_ATTEMPTS ≤ n) || b) ∧
    a.stats.providers = st1.providers ∧
    a.stats.provider_current_usages =
      mset st1.provider_current_usages pr (mgetD st1.provider_current_usages pr 0 + 1) ∧
    a.result = (match env n pr with
      | AttemptStep.channelOk _ r => r
      | AttemptStep.channelErr r => r) ∧
    a.stats.provider_failures = (match a.result with
      | JRes.Complete _ => reward pr st1.provider_failures
      | JRes.PartialJob => punish pr st1.provider_failures
      | JRes.JobError => punish pr st1.provider_failures
      | _ => st1.provider_failures) ∧
    a.punishedNew = (match a.result with
      | JRes.PartialJob => pun ++ [pr]
      | JRes.JobError => pun ++ [pr]
      | _ => pun) ∧
    ((∃ e, a.pair = [Msg.ProviderSelected pr, Msg.ChannelEstablished e]) ∨
      a.pair = [Msg.ProviderSelected pr, Msg.OrderError]) := by
  simp only [attemptOnce, hsel] at h
  rcases hstep : env n pr with ⟨est, res⟩ | ⟨res⟩ <;> rw [hstep] at h <;>
    cases res <;> (injection h with h; subst h) <;> simp [hstep, reward, punish]

/-- Inversion of one loop iteration with a custom provider: the provider is
used directly, is_last_provider is true, and therefore last_chance is true. -/
theorem attemptOnce_some_spec (env : Nat → Provider → AttemptStep)
    (initial_score : Provider → Int) (st : ProvidersWithStats) (n : Nat)
    (pun : List Provider) (a : AttemptOut) (p : Provider)
    (h : attemptOnce env initial_score (some p) st n pun = some a) :
    a.provider = p ∧ a.isLast = true ∧ a.lastChance = true ∧
    a.stats.providers = st.providers ∧
    a.stats.provider_current_usages =
      mset st.provider_current_usages p (mgetD st.provider_current_usages p 0 + 1) ∧
    a.result = (match env n p with
      | AttemptStep.channelOk _ r => r
      | AttemptStep.channelErr r => r) ∧
    a.stats.provider_failures = (match a.result with
      | JRes.Complete _ => reward p st.provider_failures
      | JRes.PartialJob => punish p st.provider_failures
      | JRes.JobError => punish p st.provider_failures
      | _ => st.provider_failures) ∧
    a.punishedNew = (match a.result with
      | JRes.PartialJob => pun ++ [p]
      | JRes.JobError => pun ++ [p]
      | _ => pun) ∧
    ((∃ e, a.pair = [Msg.ProviderSelected p, Msg.ChannelEstablished e]) ∨
      a.pair = [Msg.ProviderSelected p, Msg.OrderError]) := by
  simp only [attemptOnce] at h
  rcases hstep : env n p with ⟨est, res⟩ | ⟨res⟩ <;> rw [hstep] at h <;>
    cases res <;> (injection h with h; subst h) <;> simp [hstep, reward, punish]

/-- The two messages of every attempt: ProviderSelected, then exactly one of
ChannelEstablished or OrderError. -/
theorem attemptOnce_pair (env : Nat → Provider → AttemptStep)
    (initial_score : Provider → Int) (custom : Option Provider)
    (st : ProvidersWithStats) (n : Nat) (pun : List Provider) (a : AttemptOut)
    (h : attemptOnce env initial_score custom st n pun = some a) :
    (∃ e, a.pair = [Msg.ProviderSelected a.provider, Msg.ChannelEstablished e]) ∨
      a.pair = [Msg.ProviderSelected a.provider, Msg.OrderError] := by
  cases custom with
  | none =>
    rcases hsel : select_provider initial_score st with _ | ⟨⟨pr, b⟩, st1⟩
    · rw [attemptOnce] at h
      rw [hsel] at h
      exact Option.noConfusion h
    · obtain ⟨hpr, _, _, _, _, _, _, _, hpair⟩ :=
        attemptOnce_none_spec env initial_score st n pun a pr b st1 hsel h
      rw [hpr]
      exact hpair
  | some p =>
    obtain ⟨hpr, _, _, _, _, _, _, _, hpair⟩ :=
      attemptOnce_some_spec env initial_score st n pun a p h
    rw [hpr]
    exact hpair

/-- With a custom provider the loop performs exactly one attempt: is_last is
true, hence last_chance is true and the loop breaks after its first
iteration. -/
theorem tryLoop_some_spec (env : Nat → Provider → AttemptStep)
    (initial_score : Provider → Int) (p : Provider) (st : ProvidersWithStats)
    (fuel n : Nat) (pun : List Provider) (hf : 1 ≤ fuel) :
    ∃ a, attemptOnce env initial_score (some p) st (n + 1) pun = some a ∧
      tryLoop env initial_score (some p) fuel st n pun = RunOut.finished
        { result := a.result, lastProvider := a.provider, stats := a.stats,
          punished := a.punishedNew, msgs := a.pair, attempts := n + 1 } := by
  cases fuel with
  | zero => exact absurd hf (by simp)
  | succ fuel =>
    rcases ha : attemptOnce env initial_score (some p) st (n + 1) pun with _ | a
    · exfalso
      simp only [attemptOnce] at ha
      rcases hstep : env (n + 1) p with ⟨est, res⟩ | ⟨res⟩ <;> rw [hstep] at ha <;>
        cases res <;> exact Option.noConfusion ha
    · obtain ⟨_, _, hlc, _⟩ := attemptOnce_some_spec env initial_score st (n + 1) pun a p ha
      have hbr : isBreak a = true := by
        simp [isBreak, hlc]
      refine ⟨a, rfl, ?_⟩
      simp only [tryLoop, ha, hbr, if_true]

/-- A non-empty working list always yields an attempt. -/
theorem attemptOnce_none_isSome (env : Nat → Provider → AttemptStep)
    (initial_score : Provider → Int) (st : ProvidersWithStats) (n : Nat)
    (pun : List Provider) (pr : Provider) (b : Bool) (st1 : ProvidersWithStats)
    (hsel : select_provider initial_score st = some ((pr, b), st1)) :
    ∃ a, attemptOnce env initial_score none st n pun = some a := by
  rcases ha : attemptOnce env initial_score none st n pun with _ | a
  · exfalso
    simp only [attemptOnce, hsel] at ha
    rcases hstep : env n pr with ⟨est, res⟩ | ⟨res⟩ <;> rw [hstep] at ha <;>
      cases res <;> exact Option.noConfusion ha
  · exact ⟨a, rfl⟩

theorem mget_punish_self (p : Provider) (m : List (Provider × Int)) :
    mget (punish p m) p = some (mgetD m p 0 + 1) :=
  mget_mset_self m p (mgetD m p 0 + 1)

theorem mget_punish_ne (p q : Provider) (m : List (Provider × Int)) (h : q ≠ p) :
    mget (punish p m) q = mget m q :=
  mget_mset_ne m p q (mgetD m p 0 + 1) h

theorem mget_reward_self (p : Provider) (m : List (Provider × Int)) :
    mget (reward p m) p = some (mgetD m p 0 - 1) :=
  mget_mset_self m p (mgetD m p 0 - 1)

theorem mget_reward_ne (p q : Provider) (m : List (Provider × Int)) (h : q ≠ p) :
    mget (reward p m) q = mget m q :=
  mget_mset_ne m p q (mgetD m p 0 - 1) h

/-- Well-formed message streams: zero or more pairs, each a ProviderSelected
followed by exactly one of ChannelEstablished or OrderError. -/
inductive MsgPairs : List Msg → Prop
| nil : MsgPairs []
| established (p : Provider) (e : Establishment) (rest : List Msg) :
    MsgPairs rest → MsgPairs (Msg.ProviderSelected p :: Msg.ChannelEstablished e :: rest)
| failed (p : Provider) (rest : List Msg) :
    MsgPairs rest → MsgPairs (Msg.ProviderSelected p :: Msg.OrderError :: rest)

/-- Every finished run of the loop emits a well-formed message stream. -/
theorem tryLoop_msgs (env : Nat → Provider → AttemptStep) (initial_score : Provider → Int)
    (custom : Option Provider) :
    ∀ (fuel : Nat) (st : ProvidersWithStats) (n : Nat) (pun : List Provider) (out : LoopOut),
      tryLoop env initial_score custom fuel st n pun = RunOut.finished out →
      MsgPairs out.msgs := by
  intro fuel
  induction fuel with
  | zero =>
    intro st n pun out h
    simp [tryLoop] at h
  | succ fuel ih =>
    intro st n pun out h
    simp only [tryLoop] at h
    rcases ha : attemptOnce env initial_score custom st (n + 1) pun with _ | a <;>
      simp only [ha] at h
    · exact RunOut.noConfusion h
    · by_cases hbr : isBreak a
      · rw [if_pos hbr] at h
        injection h with h
        subst h
        rcases attemptOnce_pair env initial_score custom st (n + 1) pun a ha with ⟨e, hp⟩ | hp <;>
          simp only [hp]
        · exact MsgPairs.established a.provider e [] MsgPairs.nil
        · exact MsgPairs.failed a.provider [] MsgPairs.nil
      · rw [if_neg hbr] at h
        rcases hrec : tryLoop env initial_score custom fuel a.stats (n + 1) a.punishedNew
          with _ | _ | out2 <;> simp only [hrec] at h
        · exact RunOut.noConfusion h
        · exact RunOut.noConfusion h
        · injection h with h
          subst h
          have hm := ih a.stats (n + 1) a.punishedNew out2 hrec
          rcases attemptOnce_pair env initial_score custom st (n + 1) pun a ha with ⟨e, hp⟩ | hp <;>
            simp only [hp, List.cons_append, List.nil_append]
          · exact MsgPairs.established a.provider e out2.msgs hm
          · exact MsgPairs.failed a.provider out2.msgs hm

/-- Progress and bounds for the loop without a custom provider: with a
non-empty working list and enough fuel, the loop finishes, and the final
attempt number is bounded both by the initial number of providers and by
NUM_MAX_ATTEMPTS. -/
theorem tryLoop_none_finishes (env : Nat → Provider → AttemptStep)
    (initial_score : Provider → Int) :
    ∀ (fuel : Nat) (st : ProvidersWithStats) (n : Nat) (pun : List Provider),
      st.providers ≠ [] → st.providers.length ≤ fuel →
      ∃ out, tryLoop env initial_score none fuel st n pun = RunOut.finished out ∧
        out.attempts ≤ n + st.providers.length ∧
        out.attempts ≤ max (n + 1) 100 := by
  intro fuel
  induction fuel with
  | zero =>
    intro st n pun hne hle
    exact absurd (List.length_eq_zero.mp (Nat.le_zero.mp hle)) hne
  | succ fuel ih =>
    intro st n pun hne hle
    rcases hsel : select_provider initial_score st with _ | ⟨⟨pr, b⟩, st1⟩
    · exfalso
      rcases hps : st.providers with _ | ⟨p, rest⟩
      · exact absurd hps hne
      · rw [select_provider, hps] at hsel
        exact Option.noConfusion hsel
    · obtain ⟨a, ha⟩ := attemptOnce_none_isSome env initial_score st (n + 1) pun pr b st1 hsel
      obtain ⟨hapr, haisl, halc, haprov, hausg, hares, hafail, hapun, hapair⟩ :=
        attemptOnce_none_spec env initial_score st (n + 1) pun a pr b st1 hsel ha
      obtain ⟨i, hi, hgd, herase, hbeq, hf1, hu1, hprmem, hmin⟩ :=
        select_provider_inv initial_score st pr b st1 hsel
      have hpos : 1 ≤ st.providers.length := List.length_pos.mpr hne
      by_cases hbr : isBreak a
      · refine ⟨{ result := a.result,
                  lastProvider := a.provider,
                  stats := a.stats,
                  punished := a.punishedNew,
                  msgs := a.pair,
                  attempts := n + 1 }, ?_, ?_, ?_⟩
        · simp [tryLoop, ha, hbr]
        · show n + 1 ≤ n + st.providers.length
          omega
        · show n + 1 ≤ max (n + 1) 100
          exact Nat.le_max_left _ _
      · have hlc : a.lastChance = false := by
          cases hv : a.lastChance
          · rfl
          · exfalso
            apply hbr
            simp [isBreak, hv]
        have hnlt : ¬ (100 ≤ n + 1) := by
          rw [halc] at hlc
          rcases Bool.or_eq_false_iff.mp hlc with ⟨h1, _⟩
          simpa [NUM_MAX_ATTEMPTS] using of_decide_eq_false h1
        have hnemp : a.stats.providers.isEmpty = false := by
          cases hv : a.stats.providers.isEmpty
          · rfl
          · exfalso
            apply hbr
            simp [isBreak, hv]
        have hne2 : a.stats.providers ≠ [] := by
          intro hc
          rw [hc] at hnemp
          simp at hnemp
        have hlen2 : a.stats.providers.length = st.providers.length - 1 := by
          rw [haprov, herase]
          exact List.length_eraseIdx_of_lt hi
        have hle2 : a.stats.providers.length ≤ fuel := by omega
        obtain ⟨out2, hrec, hb1, hb2⟩ := ih a.stats (n + 1) a.punishedNew hne2 hle2
        refine ⟨{ out2 with msgs := a.pair ++ out2.msgs }, ?_, ?_, ?_⟩
        · simp [tryLoop, ha, hbr, hrec]
        · show out2.attempts ≤ n + st.providers.length
          omega
        · show out2.attempts ≤ max (n + 1) 100
          omega

/-- Failure-tally accounting for the loop without a custom provider over a
duplicate-free working list: the run punishes a duplicate-free list newly of
providers taken from the working list (appended to the incoming punished
accumulator), and the failures map changes exactly by +1 on the members of
newly, plus -1 on the final provider when the run ends in a success. -/
theorem tryLoop_none_failures (env : Nat → Provider → AttemptStep)
    (initial_score : Provider → Int) :
    ∀ (fuel : Nat) (st : ProvidersWithStats) (n : Nat) (pun : List Provider) (out : LoopOut),
      st.providers.Nodup →
      tryLoop env initial_score none fuel st n pun = RunOut.finished out →
      ∃ newly : List Provider,
        out.punished = pun ++ newly ∧
        newly.Nodup ∧
        (∀ p ∈ newly, p ∈ st.providers) ∧
        out.lastProvider ∈ st.providers ∧
        (out.result.isSuccess = true → out.lastProvider ∉ newly) ∧
        (∀ q, mget out.stats.provider_failures q =
          if q ∈ newly then some (mgetD st.provider_failures q 0 + 1)
          else if out.result.isSuccess = true ∧ q = out.lastProvider then
            some (mgetD st.provider_failures q 0 - 1)
          else mget st.provider_failures q) := by
  intro fuel
  induction fuel with
  | zero =>
    intro st n pun out hnd h
    simp [tryLoop] at h
  | succ fuel ih =>
    intro st n pun out hnd h
    simp only [tryLoop] at h
    rcases hsel : select_provider initial_score st with _ | ⟨⟨pr, b⟩, st1⟩
    · have hnone : attemptOnce env initial_score none st (n + 1) pun = none := by
        simp only [attemptOnce, hsel]
      rw [hnone] at h
      exact RunOut.noConfusion h
    · obtain ⟨a, ha⟩ := attemptOnce_none_isSome env initial_score st (n + 1) pun pr b st1 hsel
      simp only [ha] at h
      obtain ⟨hapr, haisl, halc, haprov, hausg, hares, hafail, hapun, hapair⟩ :=
        attemptOnce_none_spec env initial_score st (n + 1) pun a pr b st1 hsel ha
      obtain ⟨i, hi, hgd, herase, hbeq, hf1, hu1, hprmem, hmin⟩ :=
        select_provider_inv initial_score st pr b st1 hsel
      have hnd1 : st1.providers.Nodup := by
        rw [herase]
        exact List.Nodup.sublist (List.eraseIdx_sublist st.providers i) hnd
      have hprnot : pr ∉ st1.providers := by
        rw [herase, ← hgd]
        exact nodup_getD_not_mem_eraseIdx st.providers i hnd hi
      have hsub1 : ∀ q ∈ st1.providers, q ∈ st.providers := by
        intro q hq
        rw [herase] at hq
        exact List.mem_of_mem_eraseIdx hq
      by_cases hbr : isBreak a
      · rw [if_pos hbr] at h
        injection h with h
        have hout_res : out.result = a.result := by rw [← h]
        have hout_last : out.lastProvider = a.provider := by rw [← h]
        have hout_stats : out.stats = a.stats := by rw [← h]
        have hout_pun : out.punished = a.punishedNew := by rw [← h]
        rcases hres : a.result with s | _ | _ | _ | _ | _
        · -- Complete
          simp only [hres] at hafail hapun
          refine ⟨[], ?_, ?_, ?_, ?_, ?_, ?_⟩
          · rw [hout_pun, hapun]
            simp
          · simp
          · simp
          · rw [hout_last, hapr]
            exact hprmem
          · simp
          · intro q
            rw [hout_stats, hout_res, hout_last, hres, hapr]
            have hfacts : a.stats.provider_failures = reward pr st.provider_failures := by
              rw [hafail, hf1]
            rw [hfacts]
            by_cases hq : q = pr
            · subst hq
              rw [mget_reward_self]
              simp [JRes.isSuccess]
            · rw [mget_reward_ne pr q _ hq]
              simp [JRes.isSuccess, hq]
        · -- PartialJob
          simp only [hres] at hafail hapun
          refine ⟨[pr], ?_, ?_, ?_, ?_, ?_, ?_⟩
          · rw [hout_pun, hapun]
          · simp
          · intro p hp
            rcases List.mem_cons.mp hp with hp | hp
            · rw [hp]
              exact hprmem
            · simp at hp
          · rw [hout_last, hapr]
            exact hprmem
          · intro hs
            rw [hout_res, hres] at hs
            simp [JRes.isSuccess] at hs
          · intro q
            rw [hout_stats, hout_res, hout_last, hres]
            have hfacts : a.stats.provider_failures = punish pr st.provider_failures := by
              rw [hafail, hf1]
            rw [hfacts]
            by_cases hq : q = pr
            · subst hq
              rw [mget_punish_self]
              simp [JRes.isSuccess]
            · rw [mget_punish_ne pr q _ hq]
              simp [JRes.isSuccess, hq]
        · -- JobError
          simp only [hres] at hafail hapun
          refine ⟨[pr], ?_, ?_, ?_, ?_, ?_, ?_⟩
          · rw [hout_pun, hapun]
          · simp
          · intro p hp
            rcases List.mem_cons.mp hp with hp | hp
            · rw [hp]
              exact hprmem
            · simp at hp
          · rw [hout_last, hapr]
            exact hprmem
          · intro hs
            rw [hout_res, hres] at hs
            simp [JRes.isSuccess] at hs
          · intro q
            rw [hout_stats, hout_res, hout_last, hres]
            have hfacts : a.stats.provider_failures = punish pr st.provider_failures := by
              rw [hafail, hf1]
            rw [hfacts]
            by_cases hq : q = pr
            · subst hq
              rw [mget_punish_self]
              simp [JRes.isSuccess]
            · rw [mget_punish_ne pr q _ hq]
              simp [JRes.isSuccess, hq]
        · -- Unavailable
          simp only [hres] at hafail hapun
          refine ⟨[], ?_, ?_, ?_, ?_, ?_, ?_⟩
          · rw [hout_pun, hapun]
            simp
          · simp
          · simp
          · rw [hout_last, hapr]
            exact hprmem
          · simp
          · intro q
            rw [hout_stats, hout_res, hout_last, hres]
            have hfacts : a.stats.provider_failures = st.provider_failures := by
              rw [hafail, hf1]
            rw [hfacts]
            simp [JRes.isSuccess]
        · -- ClientError
          simp only [hres] at hafail hapun
          refine ⟨[], ?_, ?_, ?_, ?_, ?_, ?_⟩
          · rw [hout_pun, hapun]
            simp
          · simp
          · simp
          · rw [hout_last, hapr]
            exact hprmem
          · simp
          · intro q
            rw [hout_stats, hout_res, hout_last, hres]
            have hfacts : a.stats.provider_failures = st.provider_failures := by
              rw [hafail, hf1]
            rw [hfacts]
            simp [JRes.isSuccess]
        · -- UnexpectedInternalError
          simp only [hres] at hafail hapun
          refine ⟨[], ?_, ?_, ?_, ?_, ?_, ?_⟩
          · rw [hout_pun, hapun]
            simp
          · simp
          · simp
          · rw [hout_last, hapr]
            exact hprmem
          · simp
          · intro q
            rw [hout_stats, hout_res, hout_last, hres]
            have hfacts : a.stats.provider_failures = st.provider_failures := by
              rw [hafail, hf1]
            rw [hfacts]
            simp [JRes.isSuccess]
      · rw [if_neg hbr] at h
        have hbr' := hbr
        simp only [isBreak, Bool.or_eq_true, not_or, decide_eq_true_eq] at hbr'
        obtain ⟨⟨⟨⟨hnCE, hnUIE⟩, hnS⟩, hnE⟩, hnL⟩ := hbr'
        rcases hrec : tryLoop env initial_score none fuel a.stats (n + 1) a.punishedNew
          with _ | _ | out2 <;> simp only [hrec] at h
        · exact RunOut.noConfusion h
        · exact RunOut.noConfusion h
        · injection h with h
          have hout_res : out.result = out2.result := by rw [← h]
          have hout_last : out.lastProvider = out2.lastProvider := by rw [← h]
          have hout_stats : out.stats = out2.stats := by rw [← h]
          have hout_pun : out.punished = out2.punished := by rw [← h]
          obtain ⟨newly2, hp2, hnd2, hmem2, hlast2, hsucc2, hform2⟩ :=
            ih a.stats (n + 1) a.punishedNew out2 (by rw [haprov]; exact hnd1) hrec
          have hprnot2 : pr ∉ a.stats.providers := by
            rw [haprov]
            exact hprnot
          have hnot2 : pr ∉ newly2 := fun hc => hprnot2 (hmem2 pr hc)
          have hlastne : out2.lastProvider ≠ pr := by
            intro hc
            exact hprnot2 (hc ▸ hlast2)
          rcases hres : a.result with s | _ | _ | _ | _ | _
          · exact absurd (by rw [hres]; rfl) hnS
          · -- PartialJob
            simp only [hres] at hafail hapun
            refine ⟨pr :: newly2, ?_, ?_, ?_, ?_, ?_, ?_⟩
            · rw [hout_pun, hp2, hapun]
              simp
            · exact List.nodup_cons.mpr ⟨hnot2, hnd2⟩
            · intro p hp
              rcases List.mem_cons.mp hp with hp | hp
              · rw [hp]
                exact hprmem
              · exact hsub1 p (haprov ▸ hmem2 p hp)
            · rw [hout_last]
              exact hsub1 _ (haprov ▸ hlast2)
            · intro hs
              rw [hout_res] at hs
              rw [hout_last]
              intro hmem
              rcases List.mem_cons.mp hmem with hc | hc
              · exact hlastne hc
              · exact (hsucc2 hs) hc
            · intro q
              rw [hout_stats, hout_res, hout_last]
              have hfacts : a.stats.provider_failures = punish pr st.provider_failures := by
                rw [hafail, hf1]
              by_cases hq : q = pr
              · subst hq
                have hc2 : ¬ (out2.result.isSuccess = true ∧ q = out2.lastProvider) := by
                  rintro ⟨_, hc⟩
                  exact hlastne hc.symm
                rw [hform2 q, if_neg (by simpa using hnot2), if_neg hc2, hfacts,
                  mget_punish_self]
                simp
              · have hq1 : mget a.stats.provider_failures q = mget st.provider_failures q := by
                  rw [hfacts]
                  exact mget_punish_ne pr q st.provider_failures hq
                have hq2 : mgetD a.stats.provider_failures q 0 =
                    mgetD st.provider_failures q 0 := by
                  unfold mgetD
                  rw [hq1]
                rw [hform2 q, hq1, hq2]
                by_cases hmem : q ∈ newly2
                · simp [hmem]
                · simp [hmem, hq]
          · -- JobError
            simp only [hres] at hafail hapun
            refine ⟨pr :: newly2, ?_, ?_, ?_, ?_, ?_, ?_⟩
            · rw [hout_pun, hp2, hapun]
              simp
            · exact List.nodup_cons.mpr ⟨hnot2, hnd2⟩
            · intro p hp
              rcases List.mem_cons.mp hp with hp | hp
              · rw [hp]
                exact hprmem
              · exact hsub1 p (haprov ▸ hmem2 p hp)
            · rw [hout_last]
              exact hsub1 _ (haprov ▸ hlast2)
            · intro hs
              rw [hout_res] at hs
              rw [hout_last]
              intro hmem
              rcases List.mem_cons.mp hmem with hc | hc
              · exact hlastne hc
              · exact (hsucc2 hs) hc
            · intro q
              rw [hout_stats, hout_res, hout_last]
              have hfacts : a.stats.provider_failures = punish pr st.provider_failures := by
                rw [hafail, hf1]
              by_cases hq : q = pr
              · subst hq
                have hc2 : ¬ (out2.result.isSuccess = true ∧ q = out2.lastProvider) := by
                  rintro ⟨_, hc⟩
                  exact hlastne hc.symm
                rw [hform2 q, if_neg (by simpa using hnot2), if_neg hc2, hfacts,
                  mget_punish_self]
                simp
              · have hq1 : mget a.stats.provider_failures q = mget st.provider_failures q := by
                  rw [hfacts]
                  exact mget_punish_ne pr q st.provider_failures hq
                have hq2 : mgetD a.stats.provider_failures q 0 =
                    mgetD st.provider_failures q 0 := by
                  unfold mgetD
                  rw [hq1]
                rw [hform2 q, hq1, hq2]
                by_cases hmem : q ∈ newly2
                · simp [hmem]
                · simp [hmem, hq]
          · -- Unavailable
            simp only [hres] at hafail hapun
            refine ⟨newly2, ?_, ?_, ?_, ?_, ?_, ?_⟩
            · rw [hout_pun, hp2, hapun]
            · exact hnd2
            · intro p hp
              exact hsub1 p (haprov ▸ hmem2 p hp)
            · rw [hout_last]
              exact hsub1 _ (haprov ▸ hlast2)
            · intro hs
              rw [hout_res] at hs
              rw [hout_last]
              exact hsucc2 hs
            · intro q
              rw [hout_stats, hout_res, hout_last]
              have hfacts : a.stats.provider_failures = st.provider_failures := by
                rw [hafail, hf1]
              rw [hform2 q, hfacts]
          · exact absurd hres hnCE
          · exact absurd hres hnUIE

/-! ### The Order Index and scheduler (lib.rs lines 329-553) -/

/-- An order: an identity plus the two Order-trait capabilities the scheduler
consults (is_cacheable and custom_provider). -/
structure Order where
  ident : Nat
  is_cacheable : Bool
  custom_provider : Option Provider
deriving DecidableEq

/-- CachedItem (lib.rs lines 329-333). -/
structure CachedItem where
  complete_size : Option Nat
  cached_size : Nat
deriving DecidableEq

/-- OrderState (lib.rs lines 335-339). -/
inductive OrderState
| Cached (item : CachedItem)
| InProgress
deriving DecidableEq

/-- The shared state of JobContext the claims concern: the global provider
list, the Order Index, and the two tallies. The channel pool and the panic
monitor are not needed by any claim. -/
structure JobContext where
  providers : List Provider
  order_states : List (Order × OrderState)
  provider_failures : List (Provider × Int)
  providers_in_use : List (Provider × Int)
deriving DecidableEq

/-- ScheduleOutcome; Scheduled records the cached_size handed to the spawned
worker in place of the Rust handle. -/
inductive ScheduleOutcome
| AlreadyInProgress
| Scheduled (cached_size : Nat)
| Cached
| Uncacheable (p : Provider)
deriving DecidableEq

/-- JobContext::best_provider (lib.rs lines 407-423): the custom provider if
set, else the first provider of the global registry; none models the index
panic on an empty registry. -/
def best_provider (ctx : JobContext) (o : Order) : Option Provider :=
  match o.custom_provider with
  | none => ctx.providers.head?
  | some p => some p

/-- JobContext::try_schedule (lib.rs lines 426-464), returning the outcome
and the updated context; none models a panic inside best_provider. -/
def try_schedule (ctx : JobContext) (o : Order) (resume_from : Option Nat) :
    Option (ScheduleOutcome × JobContext) :=
  if o.is_cacheable = false then
    (best_provider ctx o).map fun p => (ScheduleOutcome.Uncacheable p, ctx)
  else
    match mget ctx.order_states o with
    | none =>
      if 0 < resume_from.getD 0 then
        (best_provider ctx o).map fun p => (ScheduleOutcome.Uncacheable p, ctx)
      else
        some (ScheduleOutcome.Scheduled 0,
          { ctx with order_states := mset ctx.order_states o OrderState.InProgress })
    | some (OrderState.Cached item) =>
      if item.cached_size < resume_from.getD 0 then
        (best_provider ctx o).map fun p => (ScheduleOutcome.Uncacheable p, ctx)
      else if item.complete_size = some item.cached_size then
        some (ScheduleOutcome.Cached, ctx)
      else
        some (ScheduleOutcome.Scheduled item.cached_size,
          { ctx with order_states := mset ctx.order_states o OrderState.InProgress })
    | some OrderState.InProgress => some (ScheduleOutcome.AlreadyInProgress, ctx)

/-- The worker's post-processing of the Order Index (the closure spawned in
JobContext::schedule, lib.rs lines 500-524): the entry is removed, and on
Complete the CachedItem built from the job's single reported size is
inserted. -/
def worker_finalize (order_states : List (Order × OrderState)) (o : Order) (result : JRes) :
    List (Order × OrderState) :=
  let removed := mremove order_states o
  match result with
  | JRes.Complete size =>
      mset removed o (OrderState.Cached { complete_size := some size, cached_size := size })
  | _ => removed

/-- The whole spawned worker (lib.rs lines 500-550): run try_until_success on
a cloned snapshot of the provider list together with the shared tallies, then
finalize the Order Index. none models a panicking worker, which never reaches
the post-processing. The global provider list is carried over untouched: the
worker only ever mutates its snapshot. -/
def run_worker (ctx : JobContext) (o : Order) (env : Nat → Provider → AttemptStep)
    (initial_score : Provider → Int) : Option JobContext :=
  let snapshot : ProvidersWithStats :=
    { provider_failures := ctx.provider_failures,
      provider_current_usages := ctx.providers_in_use,
      providers := ctx.providers }
  match try_until_success env initial_score o.custom_provider snapshot with
  | RunOut.finished out =>
      some { providers := ctx.providers,
             order_states := worker_finalize ctx.order_states o out.result,
             provider_failures := out.stats.provider_failures,
             providers_in_use := out.stats.provider_current_usages }
  | _ => none

/-- try_schedule followed by the spawned worker, when there is one. -/
def try_schedule_full (ctx : JobContext) (o : Order) (resume_from : Option Nat)
    (env : Nat → Provider → AttemptStep) (initial_score : Provider → Int) :
    Option (ScheduleOutcome × JobContext) :=
  match try_schedule ctx o resume_from with
  | none => none
  | some (ScheduleOutcome.Scheduled cs, ctx1) =>
      (run_worker ctx1 o env initial_score).map fun ctx2 => (ScheduleOutcome.Scheduled cs, ctx2)
  | some r => some r


/-! ### Pardon accounting -/

/-- Pointwise effect of pardon: each occurrence in the punished list of a key
present in the map decrements that entry by one; missing keys are skipped and
other keys are untouched. -/
theorem mget_pardon (ps : List Provider) (m : List (Provider × Int)) (q : Provider) :
    mget (pardon ps m) q = (mget m q).map fun v => v - (ps.count q : Int) := by
  induction ps generalizing m with
  | nil =>
    simp [pardon]
  | cons p ps ihp =>
    have hstep : pardon (p :: ps) m = pardon ps
        (match mget m p with
         | some v => mset m p (v - 1)
         | none => m) := by
      simp [pardon]
    rw [hstep, ihp]
    by_cases hq : q = p
    · subst hq
      cases hm : mget m q with
      | none =>
        simp [hm]
      | some v =>
        simp [hm, mget_mset_self, List.count_cons]
        try omega
    · cases hm : mget m p with
      | none =>
        simp [hm, List.count_cons, hq]
      | some v =>
        simp [hm, mget_mset_ne m p q (v - 1) hq, List.count_cons, hq]

/-! ### Claim theorems for the attempt loop and selection -/

/-- C2: DynamicScore comparison is lexicographic on the triple (num_failures,
num_current_usages, initial_score), and select_provider on a non-empty
working list returns a provider of minimal dynamic score (failures and usages
defaulting to 0 for providers absent from the maps), removes exactly that
occurrence from the working list, leaves both tallies unchanged, and returns
true as its second component iff the working list is empty after the
removal. -/
theorem select_provider_min :
    (∀ a b : DynamicScore,
      a.cmp b = Ordering.lt ↔
        (a.num_failures < b.num_failures ∨
          (a.num_failures = b.num_failures ∧
            (a.num_current_usages < b.num_current_usages ∨
              (a.num_current_usages = b.num_current_usages ∧
                a.initial_score < b.initial_score))))) ∧
    (∀ (initial_score : Provider → Int) (st : ProvidersWithStats), st.providers ≠ [] →
      ∃ (pr : Provider) (last : Bool) (st2 : ProvidersWithStats),
        select_provider initial_score st = some ((pr, last), st2) ∧
        pr ∈ st.providers ∧
        (∃ i, i < st.providers.length ∧ st.providers.getD i 0 = pr ∧
          st2.providers = st.providers.eraseIdx i) ∧
        (∀ q ∈ st.providers,
          ¬ (dynScore st.provider_failures st.provider_current_usages initial_score q).cmp
              (dynScore st.provider_failures st.provider_current_usages initial_score pr)
            = Ordering.lt) ∧
        last = st2.providers.isEmpty ∧
        st2.provider_failures = st.provider_failures ∧
        st2.provider_current_usages = st.provider_current_usages) := by
  constructor
  · exact cmp_lt_iff
  · intro initial_score st hne
    obtain ⟨i, hi, heq, hmin⟩ := select_provider_eq initial_score st hne
    refine ⟨st.providers.getD i 0, (st.providers.eraseIdx i).isEmpty,
      { st with providers := st.providers.eraseIdx i }, heq, ?_,
      ⟨i, hi, rfl, rfl⟩, hmin, rfl, rfl, rfl⟩
    rw [List.getD_eq_getElem _ _ hi]
    exact List.getElem_mem hi

theorem select_provider_min_witness :
    ∃ (pr : Provider) (last : Bool) (st2 : ProvidersWithStats),
      select_provider (fun _ => 0)
          { provider_failures := [], provider_current_usages := [], providers := [3] }
        = some ((pr, last), st2) ∧
      pr ∈ [3] ∧
      (∃ i, i < [3].length ∧ ([3] : List Provider).getD i 0 = pr ∧
        st2.providers = ([3] : List Provider).eraseIdx i) ∧
      (∀ q ∈ ([3] : List Provider),
        ¬ (dynScore [] [] (fun _ => 0) q).cmp (dynScore [] [] (fun _ => 0) pr)
          = Ordering.lt) ∧
      last = st2.providers.isEmpty ∧
      st2.provider_failures = [] ∧
      st2.provider_current_usages = [] :=
  select_provider_min.2 (fun _ => 0)
    { provider_failures := [], provider_current_usages := [], providers := [3] } (by decide)

/-- C3 counterexample: the claim says pardon leaves entries whose value is
zero unchanged, but Order::pardon decrements every occupied entry: pardoning
provider 0 whose failures entry is 0 drives the entry to -1. -/
theorem pardon_zero_entry_decremented :
    pardon [0] [(0, 0)] = [(0, -1)] ∧ ¬ mget (pardon [0] [(0, 0)]) 0 = some 0 := by
  constructor
  · rfl
  · decide

/-- C3 (amended): pardon(ps, failures) decrements failures[p] by 1 for each
occurrence in ps of a key p that is currently present in the map - regardless
of the entry value, including zero - silently skips keys missing from the
map, and does not touch providers not in ps. -/
theorem pardon_pointwise (ps : List Provider) (m : List (Provider × Int)) (q : Provider) :
    mget (pardon ps m) q = (mget m q).map fun v => v - (ps.count q : Int) :=
  mget_pardon ps m q

/-- C9: for a single order worker, the message stream consists of zero or more
pairs, each a ProviderSelected message followed by exactly one of
ChannelEstablished (channel acquisition succeeded) or OrderError (it failed),
one pair per attempt; the finished run fixes the whole finite stream, so no
further message follows termination. -/
theorem message_stream_shape (env : Nat → Provider → AttemptStep)
    (initial_score : Provider → Int) (custom : Option Provider)
    (st : ProvidersWithStats) (out : LoopOut)
    (h : try_until_success env initial_score custom st = RunOut.finished out) :
    MsgPairs out.msgs := by
  unfold try_until_success at h
  rcases hloop : tryLoop env initial_score custom (st.providers.length + 1) st 0 []
    with _ | _ | out0 <;> simp only [hloop] at h
  · exact RunOut.noConfusion h
  · exact RunOut.noConfusion h
  · have hm := tryLoop_msgs env initial_score custom (st.providers.length + 1) st 0 [] out0 hloop
    by_cases hs : out0.result.isSuccess
    · rw [if_pos hs] at h
      injection h with h
      rw [← h]
      exact hm
    · rw [if_neg hs] at h
      injection h with h
      rw [← h]
      exact hm

theorem message_stream_shape_witness :
    MsgPairs [Msg.ProviderSelected 5, Msg.ChannelEstablished Establishment.NewChannel] := by
  have h : try_until_success
      (fun _ _ => AttemptStep.channelOk Establishment.NewChannel (JRes.Complete 7))
      (fun _ => 0) none
      { provider_failures := [], provider_current_usages := [], providers := [5] }
      = RunOut.finished
        { result := JRes.Complete 7,
          lastProvider := 5,
          stats := { provider_failures := [(5, -1)],
                     provider_current_usages := [(5, 1)],
                     providers := [] },
          punished := [],
          msgs := [Msg.ProviderSelected 5, Msg.ChannelEstablished Establishment.NewChannel],
          attempts := 1 } := by rfl
  exact message_stream_shape _ _ _ _ _ h

/-- C7: termination of try_until_success. With a custom provider the loop
performs exactly one attempt, because is_last_provider is true and forces
last_chance; without one, each iteration removes one provider from the
working list, so a non-empty working list yields a finished run after at most
as many attempts as there are providers, and never more than
NUM_MAX_ATTEMPTS = 100 attempts. -/
theorem attempt_loop_terminates (env : Nat → Provider → AttemptStep)
    (initial_score : Provider → Int) (custom : Option Provider) (st : ProvidersWithStats) :
    (∀ p, custom = some p →
      ∃ out, try_until_success env initial_score custom st = RunOut.finished out ∧
        out.attempts = 1) ∧
    (custom = none → st.providers ≠ [] →
      ∃ out, try_until_success env initial_score custom st = RunOut.finished out ∧
        out.attempts ≤ st.providers.length ∧ out.attempts ≤ NUM_MAX_ATTEMPTS) := by
  constructor
  · intro p hp
    subst hp
    obtain ⟨a, ha, hl⟩ := tryLoop_some_spec env initial_score p st (st.providers.length + 1) 0 []
      (by omega)
    by_cases hs : a.result.isSuccess
    · refine ⟨{ result := a.result,
                lastProvider := a.provider,
                stats := a.stats,
                punished := a.punishedNew,
                msgs := a.pair,
                attempts := 0 + 1 }, ?_, rfl⟩
      simp [try_until_success, hl, hs]
    · refine ⟨{ result := a.result,
                lastProvider := a.provider,
                stats := { provider_failures := pardon a.punishedNew a.stats.provider_failures,
                           provider_current_usages := a.stats.provider_current_usages,
                           providers := a.stats.providers },
                punished := a.punishedNew,
                msgs := a.pair,
                attempts := 0 + 1 }, ?_, rfl⟩
      simp [try_until_success, hl, hs]
  · intro hc hne
    subst hc
    obtain ⟨out0, hrec, hb1, hb2⟩ := tryLoop_none_finishes env initial_score
      (st.providers.length + 1) st 0 [] hne (by omega)
    by_cases hs : out0.result.isSuccess
    · refine ⟨out0, ?_, ?_, ?_⟩
      · simp [try_until_success, hrec, hs]
      · omega
      · simp only [NUM_MAX_ATTEMPTS]
        omega
    · refine ⟨{ out0 with
                stats := { out0.stats with
                           provider_failures :=
                             pardon out0.punished out0.stats.provider_failures } }, ?_, ?_, ?_⟩
      · simp [try_until_success, hrec, hs]
      · show out0.attempts ≤ st.providers.length
        omega
      · show out0.attempts ≤ NUM_MAX_ATTEMPTS
        simp only [NUM_MAX_ATTEMPTS]
        omega

theorem attempt_loop_terminates_witness :
    ∃ out, try_until_success (fun _ _ => AttemptStep.channelErr JRes.JobError) (fun _ => 0)
        none { provider_failures := [], provider_current_usages := [], providers := [1, 2] }
      = RunOut.finished out ∧
      out.attempts ≤ ([1, 2] : List Provider).length ∧ out.attempts ≤ NUM_MAX_ATTEMPTS :=
  (attempt_loop_terminates (fun _ _ => AttemptStep.channelErr JRes.JobError) (fun _ => 0)
    none { provider_failures := [], provider_current_usages := [], providers := [1, 2] }).2
    rfl (by decide)


/-- C4: net failure-tally change of a single run of try_until_success over a
duplicate-free provider registry. A run ending in Complete leaves the
completing provider at exactly one reward (net -1) and every provider that
was neither punished nor the completing one unchanged; a run ending without
success leaves every provider unchanged: each punish is offset by one pardon
at exit, and attempts that returned Unavailable never modified the tally. -/
theorem attempt_loop_net_failures (env : Nat → Provider → AttemptStep)
    (initial_score : Provider → Int) (custom : Option Provider)
    (st : ProvidersWithStats) (out : LoopOut)
    (hnd : st.providers.Nodup)
    (hrun : try_until_success env initial_score custom st = RunOut.finished out) :
    (out.result.isSuccess = true →
      mgetD out.stats.provider_failures out.lastProvider 0 =
        mgetD st.provider_failures out.lastProvider 0 - 1) ∧
    (out.result.isSuccess = true →
      ∀ q, q ∉ out.punished → q ≠ out.lastProvider →
        mgetD out.stats.provider_failures q 0 = mgetD st.provider_failures q 0) ∧
    (out.result.isSuccess = false →
      ∀ q, mgetD out.stats.provider_failures q 0 = mgetD st.provider_failures q 0) := by
  unfold try_until_success at hrun
  rcases hloop : tryLoop env initial_score custom (st.providers.length + 1) st 0 []
    with _ | _ | out0 <;> simp only [hloop] at hrun
  · exact RunOut.noConfusion hrun
  · exact RunOut.noConfusion hrun
  cases custom with
  | none =>
    obtain ⟨newly, hpun, hndn, hmemn, hlastn, hsuccn, hform⟩ :=
      tryLoop_none_failures env initial_score (st.providers.length + 1) st 0 [] out0 hnd hloop
    simp only [List.nil_append] at hpun
    by_cases hs : out0.result.isSuccess
    · rw [if_pos hs] at hrun
      injection hrun with hrun
      subst hrun
      refine ⟨?_, ?_, ?_⟩
      · intro _
        have hnm : out0.lastProvider ∉ newly := hsuccn hs
        have hf := hform out0.lastProvider
        rw [if_neg hnm, if_pos ⟨hs, rfl⟩] at hf
        simp [mgetD, hf]
      · intro _ q hqp hql
        have hq1 : q ∉ newly := by
          rw [← hpun]
          exact hqp
        have hf := hform q
        rw [if_neg hq1, if_neg (by rintro ⟨_, hc⟩; exact hql hc)] at hf
        simp [mgetD, hf]
      · intro hfalse
        rw [hs] at hfalse
        exact Bool.noConfusion hfalse
    · rw [if_neg hs] at hrun
      injection hrun with hrun
      subst hrun
      refine ⟨?_, ?_, ?_⟩
      · intro hstrue
        exact absurd hstrue hs
      · intro hstrue
        exact absurd hstrue hs
      · intro _ q
        show mgetD (pardon out0.punished out0.stats.provider_failures) q 0 =
          mgetD st.provider_failures q 0
        rw [hpun]
        have hf := hform q
        by_cases hq : q ∈ newly
        · have hcnt : newly.count q = 1 := List.count_eq_one_of_mem hndn hq
          have hm := mget_pardon newly out0.stats.provider_failures q
          rw [hf, if_pos hq, hcnt] at hm
          unfold mgetD
          rw [hm]
          simp [mgetD]
        · have hcnt : newly.count q = 0 := List.count_eq_zero_of_not_mem hq
          have hm := mget_pardon newly out0.stats.provider_failures q
          rw [hf, if_neg hq, if_neg (fun hc => hs hc.1), hcnt] at hm
          unfold mgetD
          rw [hm]
          cases hv : mget st.provider_failures q <;> simp
  | some p =>
    obtain ⟨a, ha, hl⟩ := tryLoop_some_spec env initial_score p st (st.providers.length + 1) 0 []
      (by omega)
    rw [hl] at hloop
    injection hloop with hloop
    subst hloop
    obtain ⟨hapr, haisl, halc, haprov, hausg, hares, hafail, hapun, hapair⟩ :=
      attemptOnce_some_spec env initial_score st (0 + 1) [] a p ha
    by_cases hs : a.result.isSuccess
    · simp only [hs] at hrun
      rw [if_pos trivial] at hrun
      injection hrun with hrun
      subst hrun
      rcases hres : a.result with s | _ | _ | _ | _ | _ <;>
        (try (exfalso; rw [hres] at hs; exact Bool.noConfusion hs))
      simp only [hres] at hafail hapun
      refine ⟨?_, ?_, ?_⟩
      · intro _
        show mgetD a.stats.provider_failures a.provider 0 = _
        rw [hapr, hafail]
        unfold mgetD
        rw [mget_reward_self]
        simp [mgetD]
      · intro _ q hqp hql
        show mgetD a.stats.provider_failures q 0 = _
        rw [hafail]
        have hqp2 : q ≠ p := by
          rw [hapr] at hql
          exact hql
        unfold mgetD
        rw [mget_reward_ne p q _ hqp2]
      · intro hfalse
        have h2 : (JRes.Complete s).isSuccess = false := hfalse
        exact Bool.noConfusion h2
    · simp only [Bool.not_eq_true] at hs
      simp only [hs] at hrun
      rw [if_neg (by simp)] at hrun
      injection hrun with hrun
      subst hrun
      refine ⟨?_, ?_, ?_⟩
      · intro hstrue
        have h2 : a.result.isSuccess = true := hstrue
        rw [hs] at h2
        exact Bool.noConfusion h2
      · intro hstrue
        have h2 : a.result.isSuccess = true := hstrue
        rw [hs] at h2
        exact Bool.noConfusion h2
      · intro _ q
        show mgetD (pardon a.punishedNew a.stats.provider_failures) q 0 =
          mgetD st.provider_failures q 0
        rcases hres : a.result with s | _ | _ | _ | _ | _ <;>
          simp only [hres] at hafail hapun hs
        · exact Bool.noConfusion hs
        · rw [hapun, hafail]
          have hm := mget_pardon ([] ++ [p]) (punish p st.provider_failures) q
          by_cases hq : q = p
          · subst hq
            rw [mget_punish_self] at hm
            unfold mgetD
            rw [hm]
            simp [mgetD]
          · rw [mget_punish_ne p q _ hq] at hm
            unfold mgetD
            rw [hm]
            have hcnt : ([] ++ [p] : List Provider).count q = 0 :=
              List.count_eq_zero_of_not_mem (by simp [hq])
            rw [hcnt]
            cases hv : mget st.provider_failures q <;> simp
        · rw [hapun, hafail]
          have hm := mget_pardon ([] ++ [p]) (punish p st.provider_failures) q
          by_cases hq : q = p
          · subst hq
            rw [mget_punish_self] at hm
            unfold mgetD
            rw [hm]
            simp [mgetD]
          · rw [mget_punish_ne p q _ hq] at hm
            unfold mgetD
            rw [hm]
            have hcnt : ([] ++ [p] : List Provider).count q = 0 :=
              List.count_eq_zero_of_not_mem (by simp [hq])
            rw [hcnt]
            cases hv : mget st.provider_failures q <;> simp
        · rw [hapun, hafail]
          rfl
        · rw [hapun, hafail]
          rfl
        · rw [hapun, hafail]
          rfl

theorem attempt_loop_net_failures_witness :
    mgetD [(5, -1)] 5 0 = mgetD ([] : List (Provider × Int)) 5 0 - 1 :=
  (attempt_loop_net_failures
    (fun _ _ => AttemptStep.channelOk Establishment.NewChannel (JRes.Complete 42))
    (fun _ => 0) none
    { provider_failures := [], provider_current_usages := [], providers := [5] }
    { result := JRes.Complete 42,
      lastProvider := 5,
      stats := { provider_failures := [(5, -1)],
                 provider_current_usages := [(5, 1)],
                 providers := [] },
      punished := [],
      msgs := [Msg.ProviderSelected 5, Msg.ChannelEstablished Establishment.NewChannel],
      attempts := 1 } (by decide) rfl).1 rfl


/-! ### Scheduler helpers and claim theorems -/

/-- Consistency predicate for Order Index values: a Cached state with a known
complete size records that size as its cached size. -/
def StateOk : OrderState → Prop
| OrderState.Cached item => ∀ c, item.complete_size = some c → item.cached_size = c
| OrderState.InProgress => True

/-- Inversion of the Uncacheable return path. -/
theorem map_uncacheable_inv (ctx : JobContext) (o : Order) (out : ScheduleOutcome)
    (ctx2 : JobContext)
    (h : (best_provider ctx o).map (fun p => (ScheduleOutcome.Uncacheable p, ctx))
      = some (out, ctx2)) :
    ctx2 = ctx ∧ ∀ cs, ¬ out = ScheduleOutcome.Scheduled cs := by
  rcases hbp : best_provider ctx o with _ | p <;> rw [hbp] at h
  · exact Option.noConfusion h
  · injection h with h
    injection h with h1 h2
    refine ⟨h2.symm, ?_⟩
    intro cs hcs
    rw [← h1] at hcs
    exact ScheduleOutcome.noConfusion hcs

/-- Context effect of try_schedule: the context is unchanged except on the
Scheduled path, where the sole change is marking the order InProgress. -/
theorem try_schedule_cases_ctx (ctx : JobContext) (o : Order) (rOpt : Option Nat)
    (out : ScheduleOutcome) (ctx2 : JobContext)
    (h : try_schedule ctx o rOpt = some (out, ctx2)) :
    (ctx2 = ctx ∧ ∀ cs, ¬ out = ScheduleOutcome.Scheduled cs) ∨
    (ctx2 = { ctx with order_states := mset ctx.order_states o OrderState.InProgress } ∧
      ∃ cs, out = ScheduleOutcome.Scheduled cs) := by
  unfold try_schedule at h
  by_cases hc : o.is_cacheable = false
  · rw [if_pos hc] at h
    exact Or.inl (map_uncacheable_inv ctx o out ctx2 h)
  · rw [if_neg hc] at h
    split at h
    · by_cases hr : 0 < rOpt.getD 0
      · rw [if_pos hr] at h
        exact Or.inl (map_uncacheable_inv ctx o out ctx2 h)
      · rw [if_neg hr] at h
        injection h with h
        injection h with h1 h2
        exact Or.inr ⟨h2.symm, 0, h1.symm⟩
    · rename_i item heq
      by_cases hr : item.cached_size < rOpt.getD 0
      · rw [if_pos hr] at h
        exact Or.inl (map_uncacheable_inv ctx o out ctx2 h)
      · rw [if_neg hr] at h
        by_cases hcomp : item.complete_size = some item.cached_size
        · rw [if_pos hcomp] at h
          injection h with h
          injection h with h1 h2
          refine Or.inl ⟨h2.symm, ?_⟩
          intro cs hcs
          rw [← h1] at hcs
          exact ScheduleOutcome.noConfusion hcs
        · rw [if_neg hcomp] at h
          injection h with h
          injection h with h1 h2
          exact Or.inr ⟨h2.symm, item.cached_size, h1.symm⟩
    · injection h with h
      injection h with h1 h2
      refine Or.inl ⟨h2.symm, ?_⟩
      intro cs hcs
      rw [← h1] at hcs
      exact ScheduleOutcome.noConfusion hcs

/-- The worker returns the global provider list untouched: it only ever
mutates its snapshot. -/
theorem run_worker_providers (ctx : JobContext) (o : Order)
    (env : Nat → Provider → AttemptStep) (initial_score : Provider → Int)
    (ctx2 : JobContext) (h : run_worker ctx o env initial_score = some ctx2) :
    ctx2.providers = ctx.providers := by
  simp only [run_worker] at h
  rcases hr : try_until_success env initial_score o.custom_provider
      { provider_failures := ctx.provider_failures,
        provider_current_usages := ctx.providers_in_use,
        providers := ctx.providers } with _ | _ | outw <;> simp only [hr] at h
  · exact Option.noConfusion h
  · exact Option.noConfusion h
  · injection h with h
    rw [← h]

/-- C1: try_schedule dispatches as specified. best_provider is the order
custom provider if set, else the first provider of the global registry (none
models the panic on an empty registry). A non-cacheable order returns
Uncacheable(best_provider). Otherwise, with resume_from defaulting to 0: no
entry and resume_from > 0 gives Uncacheable; no entry and resume_from = 0
marks InProgress and gives Scheduled with cached_size 0; a Cached entry with
cached_size < resume_from gives Uncacheable; a complete Cached entry
(complete_size = some cached_size, cached_size ≥ resume_from) gives Cached;
any other Cached entry marks InProgress and gives Scheduled with that
cached_size; an InProgress entry gives AlreadyInProgress. In particular
resume_from = cached_size + 1 yields Uncacheable, and resume_from =
cached_size yields Cached if complete, else Scheduled. -/
theorem try_schedule_dispatch (ctx : JobContext) (o : Order) (rOpt : Option Nat) :
    (∀ p, o.custom_provider = some p → best_provider ctx o = some p) ∧
    (o.custom_provider = none → best_provider ctx o = ctx.providers.head?) ∧
    (o.is_cacheable = false →
      try_schedule ctx o rOpt = (best_provider ctx o).map
        fun p => (ScheduleOutcome.Uncacheable p, ctx)) ∧
    (o.is_cacheable = true → mget ctx.order_states o = none → 0 < rOpt.getD 0 →
      try_schedule ctx o rOpt = (best_provider ctx o).map
        fun p => (ScheduleOutcome.Uncacheable p, ctx)) ∧
    (o.is_cacheable = true → mget ctx.order_states o = none → rOpt.getD 0 = 0 →
      try_schedule ctx o rOpt = some (ScheduleOutcome.Scheduled 0,
        { ctx with order_states := mset ctx.order_states o OrderState.InProgress })) ∧
    (∀ item : CachedItem, o.is_cacheable = true →
      mget ctx.order_states o = some (OrderState.Cached item) →
      item.cached_size < rOpt.getD 0 →
      try_schedule ctx o rOpt = (best_provider ctx o).map
        fun p => (ScheduleOutcome.Uncacheable p, ctx)) ∧
    (∀ item : CachedItem, o.is_cacheable = true →
      mget ctx.order_states o = some (OrderState.Cached item) →
      rOpt.getD 0 ≤ item.cached_size → item.complete_size = some item.cached_size →
      try_schedule ctx o rOpt = some (ScheduleOutcome.Cached, ctx)) ∧
    (∀ item : CachedItem, o.is_cacheable = true →
      mget ctx.order_states o = some (OrderState.Cached item) →
      rOpt.getD 0 ≤ item.cached_size → ¬ item.complete_size = some item.cached_size →
      try_schedule ctx o rOpt = some (ScheduleOutcome.Scheduled item.cached_size,
        { ctx with order_states := mset ctx.order_states o OrderState.InProgress })) ∧
    (o.is_cacheable = true → mget ctx.order_states o = some OrderState.InProgress →
      try_schedule ctx o rOpt = some (ScheduleOutcome.AlreadyInProgress, ctx)) ∧
    (∀ item : CachedItem, o.is_cacheable = true →
      mget ctx.order_states o = some (OrderState.Cached item) →
      rOpt.getD 0 = item.cached_size + 1 →
      try_schedule ctx o rOpt = (best_provider ctx o).map
        fun p => (ScheduleOutcome.Uncacheable p, ctx)) ∧
    (∀ item : CachedItem, o.is_cacheable = true →
      mget ctx.order_states o = some (OrderState.Cached item) →
      rOpt.getD 0 = item.cached_size →
      try_schedule ctx o rOpt =
        (if item.complete_size = some item.cached_size then
          some (ScheduleOutcome.Cached, ctx)
        else some (ScheduleOutcome.Scheduled item.cached_size,
          { ctx with order_states := mset ctx.order_states o OrderState.InProgress }))) := by
  refine ⟨?_, ?_, ?_, ?_, ?_, ?_, ?_, ?_, ?_, ?_, ?_⟩
  · intro p hp
    simp [best_provider, hp]
  · intro hp
    simp [best_provider, hp]
  · intro hc
    simp [try_schedule, hc]
  · intro hc hm hr
    simp [try_schedule, hc, hm, hr]
  · intro hc hm hr
    simp [try_schedule, hc, hm, hr]
  · intro item hc hm hr
    simp [try_schedule, hc, hm, hr]
  · intro item hc hm hr hcomp
    simp [try_schedule, hc, hm, Nat.not_lt.mpr hr, hcomp]
  · intro item hc hm hr hcomp
    simp [try_schedule, hc, hm, Nat.not_lt.mpr hr, hcomp]
  · intro hc hm
    simp [try_schedule, hc, hm]
  · intro item hc hm hr
    simp [try_schedule, hc, hm, hr, Nat.lt_succ_self]
  · intro item hc hm hr
    by_cases hcomp : item.complete_size = some item.cached_size <;>
      simp [try_schedule, hc, hm, hr, hcomp]

theorem try_schedule_dispatch_witness :
    try_schedule
        { providers := [7],
          order_states := [({ ident := 0, is_cacheable := true, custom_provider := none },
            OrderState.Cached { complete_size := some 5, cached_size := 5 })],
          provider_failures := [],
          providers_in_use := [] }
        { ident := 0, is_cacheable := true, custom_provider := none } (some 5)
      = some (ScheduleOutcome.Cached,
        { providers := [7],
          order_states := [({ ident := 0, is_cacheable := true, custom_provider := none },
            OrderState.Cached { complete_size := some 5, cached_size := 5 })],
          provider_failures := [],
          providers_in_use := [] }) :=
  (try_schedule_dispatch
    { providers := [7],
      order_states := [({ ident := 0, is_cacheable := true, custom_provider := none },
        OrderState.Cached { complete_size := some 5, cached_size := 5 })],
      provider_failures := [],
      providers_in_use := [] }
    { ident := 0, is_cacheable := true, custom_provider := none }
    (some 5)).2.2.2.2.2.2.1 { complete_size := some 5, cached_size := 5 }
    rfl (by decide) (by decide) rfl

/-- C5: after a worker finishes the order with Complete and reported size s,
the Order Index holds Cached with cached_size = s and complete_size = some s,
and a subsequent try_schedule for the same cacheable order with
resume_from = 0 (the default) or resume_from ≤ s returns Cached. -/
theorem complete_then_cached (ctx : JobContext) (o : Order) (s : Nat) (rOpt : Option Nat)
    (hc : o.is_cacheable = true) (hr : rOpt.getD 0 ≤ s) :
    mget (worker_finalize ctx.order_states o (JRes.Complete s)) o =
      some (OrderState.Cached { complete_size := some s, cached_size := s }) ∧
    try_schedule
        { ctx with order_states := worker_finalize ctx.order_states o (JRes.Complete s) }
        o rOpt
      = some (ScheduleOutcome.Cached,
        { ctx with order_states := worker_finalize ctx.order_states o (JRes.Complete s) }) := by
  have hm : mget (worker_finalize ctx.order_states o (JRes.Complete s)) o =
      some (OrderState.Cached { complete_size := some s, cached_size := s }) := by
    simp [worker_finalize, mget_mset_self]
  refine ⟨hm, ?_⟩
  simp [try_schedule, hc, hm, Nat.not_lt.mpr hr]

theorem complete_then_cached_witness :
    mget (worker_finalize ([] : List (Order × OrderState))
        { ident := 1, is_cacheable := true, custom_provider := none } (JRes.Complete 9))
        { ident := 1, is_cacheable := true, custom_provider := none } =
      some (OrderState.Cached { complete_size := some 9, cached_size := 9 }) ∧
    try_schedule
        { providers := [2],
          order_states := worker_finalize ([] : List (Order × OrderState))
            { ident := 1, is_cacheable := true, custom_provider := none } (JRes.Complete 9),
          provider_failures := [],
          providers_in_use := [] }
        { ident := 1, is_cacheable := true, custom_provider := none } (some 9)
      = some (ScheduleOutcome.Cached,
        { providers := [2],
          order_states := worker_finalize ([] : List (Order × OrderState))
            { ident := 1, is_cacheable := true, custom_provider := none } (JRes.Complete 9),
          provider_failures := [],
          providers_in_use := [] }) :=
  complete_then_cached
    { providers := [2], order_states := [], provider_failures := [], providers_in_use := [] }
    { ident := 1, is_cacheable := true, custom_provider := none } 9 (some 9) rfl (by decide)

/-- C6: every OrderState value the core itself writes into the Order Index is
consistent: the worker only ever inserts Cached items of the shape
(cached_size = size, complete_size = some size) built from the completed job
single reported size, and both the worker post-processing and try_schedule
preserve consistency of the whole index. -/
theorem order_index_cached_consistent (m : List (Order × OrderState)) (o : Order)
    (res : JRes) (ctx : JobContext) (rOpt : Option Nat)
    (hall : ∀ e ∈ m, StateOk e.2) (hall2 : ∀ e ∈ ctx.order_states, StateOk e.2) :
    (∀ s : Nat, StateOk (OrderState.Cached { complete_size := some s, cached_size := s })) ∧
    (∀ e ∈ worker_finalize m o res, StateOk e.2) ∧
    (∀ out ctx2, try_schedule ctx o rOpt = some (out, ctx2) →
      ∀ e ∈ ctx2.order_states, StateOk e.2) := by
  refine ⟨?_, ?_, ?_⟩
  · intro s c hc
    injection hc with hc
  · intro e he
    cases res with
    | Complete s =>
      have he2 : e ∈ mset (mremove m o) o
          (OrderState.Cached { complete_size := some s, cached_size := s }) := by
        simpa [worker_finalize] using he
      rcases mem_mset _ _ _ _ he2 with hh | hh
      · rw [hh]
        intro c hc
        injection hc with hc
      · exact hall e (mem_mremove _ _ _ hh)
    | PartialJob => exact hall e (mem_mremove _ _ _ (by simpa [worker_finalize] using he))
    | JobError => exact hall e (mem_mremove _ _ _ (by simpa [worker_finalize] using he))
    | Unavailable => exact hall e (mem_mremove _ _ _ (by simpa [worker_finalize] using he))
    | ClientError => exact hall e (mem_mremove _ _ _ (by simpa [worker_finalize] using he))
    | UnexpectedInternalError =>
      exact hall e (mem_mremove _ _ _ (by simpa [worker_finalize] using he))
  · intro out ctx2 h e he
    rcases try_schedule_cases_ctx ctx o rOpt out ctx2 h with ⟨hctx, _⟩ | ⟨hctx, _⟩
    · subst hctx
      exact hall2 e he
    · subst hctx
      have he2 : e ∈ mset ctx.order_states o OrderState.InProgress := he
      rcases mem_mset _ _ _ _ he2 with hh | hh
      · rw [hh]
        exact trivial
      · exact hall2 e hh

theorem order_index_cached_consistent_witness :
    StateOk (OrderState.Cached { complete_size := some 4, cached_size := 4 }) :=
  (order_index_cached_consistent []
    { ident := 0, is_cacheable := true, custom_provider := none } (JRes.Complete 4)
    { providers := [], order_states := [], provider_failures := [], providers_in_use := [] }
    none (by simp) (by simp)).1 4

/-- C8: after the worker for an order finishes, the index entry for that
order is either absent (for PartialJob, JobError, Unavailable, ClientError and
UnexpectedInternalError results) or the freshly inserted Cached state (for
Complete) - never InProgress: the InProgress mark is always released. -/
theorem worker_clears_in_progress (m : List (Order × OrderState)) (o : Order) (res : JRes) :
    (∀ s, res = JRes.Complete s → mget (worker_finalize m o res) o =
      some (OrderState.Cached { complete_size := some s, cached_size := s })) ∧
    ((∀ s, ¬ res = JRes.Complete s) → mget (worker_finalize m o res) o = none) ∧
    ¬ mget (worker_finalize m o res) o = some OrderState.InProgress := by
  have hrem : mget (mremove m o) o = none := by
    rw [mget_mremove]
    simp
  refine ⟨?_, ?_, ?_⟩
  · intro s hs
    subst hs
    simp [worker_finalize, mget_mset_self]
  · intro hns
    cases res with
    | Complete s => exact absurd rfl (hns s)
    | PartialJob => simpa [worker_finalize] using hrem
    | JobError => simpa [worker_finalize] using hrem
    | Unavailable => simpa [worker_finalize] using hrem
    | ClientError => simpa [worker_finalize] using hrem
    | UnexpectedInternalError => simpa [worker_finalize] using hrem
  · cases res with
    | Complete s =>
      intro hc
      simp [worker_finalize, mget_mset_self] at hc
    | PartialJob =>
      intro hc
      simp [worker_finalize, hrem] at hc
    | JobError =>
      intro hc
      simp [worker_finalize, hrem] at hc
    | Unavailable =>
      intro hc
      simp [worker_finalize, hrem] at hc
    | ClientError =>
      intro hc
      simp [worker_finalize, hrem] at hc
    | UnexpectedInternalError =>
      intro hc
      simp [worker_finalize, hrem] at hc

theorem worker_clears_in_progress_witness :
    mget (worker_finalize ([] : List (Order × OrderState))
        { ident := 0, is_cacheable := true, custom_provider := none } (JRes.Complete 3))
        { ident := 0, is_cacheable := true, custom_provider := none } =
      some (OrderState.Cached { complete_size := some 3, cached_size := 3 }) :=
  (worker_clears_in_progress []
    { ident := 0, is_cacheable := true, custom_provider := none } (JRes.Complete 3)).1 3 rfl

/-- C10: a call to try_schedule never mutates the global provider list and
touches neither tally; it mutates the Order Index only on the path that
returns Scheduled, where the sole change is inserting InProgress for the
scheduled order; on the Uncacheable, Cached and AlreadyInProgress outcomes
the whole context is unchanged. The spawned worker receives a cloned snapshot
of the provider list, so even composing try_schedule with a full worker run
leaves the global provider list unchanged. -/
theorem try_schedule_frame (ctx : JobContext) (o : Order) (rOpt : Option Nat)
    (env : Nat → Provider → AttemptStep) (initial_score : Provider → Int) :
    (∀ out ctx2, try_schedule ctx o rOpt = some (out, ctx2) →
      ctx2.providers = ctx.providers ∧
      ctx2.provider_failures = ctx.provider_failures ∧
      ctx2.providers_in_use = ctx.providers_in_use ∧
      ((∀ cs, ¬ out = ScheduleOutcome.Scheduled cs) → ctx2 = ctx) ∧
      (∀ cs, out = ScheduleOutcome.Scheduled cs →
        ctx2.order_states = mset ctx.order_states o OrderState.InProgress)) ∧
    (∀ out ctx2, try_schedule_full ctx o rOpt env initial_score = some (out, ctx2) →
      ctx2.providers = ctx.providers) := by
  constructor
  · intro out ctx2 h
    rcases try_schedule_cases_ctx ctx o rOpt out ctx2 h with ⟨hctx, hns⟩ | ⟨hctx, cs, hcs⟩
    · subst hctx
      exact ⟨rfl, rfl, rfl, fun _ => rfl, fun cs hcs => absurd hcs (hns cs)⟩
    · subst hctx
      refine ⟨rfl, rfl, rfl, ?_, fun _ _ => rfl⟩
      intro hno
      exact absurd hcs (hno cs)
  · intro out ctx2 h
    unfold try_schedule_full at h
    rcases hts : try_schedule ctx o rOpt with _ | ⟨out1, ctx1⟩ <;> simp only [hts] at h
    · exact Option.noConfusion h
    · have hctx1 : ctx1.providers = ctx.providers := by
        rcases try_schedule_cases_ctx ctx o rOpt out1 ctx1 hts with ⟨hctx, _⟩ | ⟨hctx, _⟩ <;>
          rw [hctx]
      rcases out1 with _ | cs | _ | p
      · injection h with h
        injection h with h1 h2
        rw [← h2]
        exact hctx1
      · rcases hw : run_worker ctx1 o env initial_score with _ | ctx3 <;> simp only [hw] at h
        · exact Option.noConfusion h
        · injection h with h
          injection h with h1 h2
          rw [← h2]
          rw [run_worker_providers ctx1 o env initial_score ctx3 hw]
          exact hctx1
      · injection h with h
        injection h with h1 h2
        rw [← h2]
        exact hctx1
      · injection h with h
        injection h with h1 h2
        rw [← h2]
        exact hctx1

theorem try_schedule_frame_witness :
    ({ providers := [3],
       order_states := mset ([] : List (Order × OrderState))
           { ident := 2, is_cacheable := true, custom_provider := none } OrderState.InProgress,
       provider_failures := [],
       providers_in_use := [] } : JobContext).providers
      = ({ providers := [3], order_states := [], provider_failures := [],
           providers_in_use := [] } : JobContext).providers :=
  ((try_schedule_frame
    { providers := [3], order_states := [], provider_failures := [], providers_in_use := [] }
    { ident := 2, is_cacheable := true, custom_provider := none } none
    (fun _ _ => AttemptStep.channelErr JRes.JobError) (fun _ => 0)).1
    (ScheduleOutcome.Scheduled 0)
    { providers := [3],
      order_states := mset ([] : List (Order × OrderState))
          { ident := 2, is_cacheable := true, custom_provider := none } OrderState.InProgress,
      provider_failures := [],
      providers_in_use := [] }
    rfl).1

end Flexo
